import Mathlib

/-!
# Sussurro overlay (`internal/ui/overlay_linux.c`, `overlay_linux.h`)

A shallow embedding of the overlay's numeric core (ring buffer of audio
levels, bar targets, exponential smoothing) and of the X11 hotkey filter and
trigger parser, together with the properties stated for them.

Conventions of the embedding:

* The code is read twice.  For the properties stated over exact arithmetic,
  `float` / `double` values are exact rationals (`ℚ`) and the decimal literals
  of the source (`0.08`, `0.7`, `0.3`, `1.0 / 60.0`) are the rationals they
  denote: `targetHeight`, `idle_push_rms`, `animation_tick`.  For the other
  properties every `double` operation is rounded to the nearest binary64
  value, each operation on its own, and a `float` sample is a binary32 value:
  `targetHeightDouble`, `idle_push_rms_double`, `animation_tick_double`.  In
  both readings the conversion `float → double` is the identity.
* A C array `T a[ITEM_COUNT]` is a function `Fin ITEM_COUNT → T`.
* `unsigned int` masks are natural numbers with `&&&` and `|||`.
* A C string is the `List Char` of its bytes before the terminating NUL.
* A callback pointer is recorded as a `Bool`: `true` when it is non-NULL.
  Calling it appends an entry to the trace returned by the function.
* The libm function `sin` and the constant `M_PI` are parameters of
  `dotAlpha`; the idle-pulse property takes them to be the real sine and `π`.
-/

namespace Sussurro

/-! ## Constants of `overlay_linux.h` -/

def OVERLAY_STATE_IDLE : Int := 0
def OVERLAY_STATE_RECORDING : Int := 1
def OVERLAY_STATE_TRANSCRIBING : Int := 2

abbrev ITEM_COUNT : Nat := 7

def BAR_MIN_HEIGHT : ℚ := 4
def BAR_MAX_HEIGHT : ℚ := 40
def RMS_SCALE : ℚ := 8 / 100

/-! ## `struct OverlayData` -/

/-- The fields of `struct OverlayData` that the animation, the level ring
buffer and the hotkey filter read or write.  The widget pointers and the
unused `dot_alpha` cache are left out. -/
structure OverlayData where
  state : Int
  anim_time : ℚ
  rms_ring : Fin ITEM_COUNT → ℚ
  rms_head : Nat
  bar_heights : Fin ITEM_COUNT → ℚ
  bar_targets : Fin ITEM_COUNT → ℚ
  shimmer_phase : ℚ
  down_cb : Bool
  up_cb : Bool
  hk_keycode : Int
  hk_mods : Nat
  hk_pressed : Bool

/-- The data part of `overlay_create`: `g_new0` zeroes every field, then the
state is set to idle and both bar arrays to `BAR_MIN_HEIGHT`. -/
def overlay_create : OverlayData where
  state := OVERLAY_STATE_IDLE
  anim_time := 0
  rms_ring := fun _ => 0
  rms_head := 0
  bar_heights := fun _ => BAR_MIN_HEIGHT
  bar_targets := fun _ => BAR_MIN_HEIGHT
  shimmer_phase := 0
  down_cb := false
  up_cb := false
  hk_keycode := 0
  hk_mods := 0
  hk_pressed := false

/-! ## Level ring buffer and bar targets -/

/-- The body of the target loop of `idle_push_rms` for one sample, over exact
arithmetic: `norm = rms / RMS_SCALE; if (norm > 1.0) norm = 1.0;` and then
`BAR_MIN_HEIGHT + norm * (BAR_MAX_HEIGHT - BAR_MIN_HEIGHT)`. -/
def targetHeight (rms : ℚ) : ℚ :=
  let norm := rms / RMS_SCALE
  let norm := if norm > 1 then 1 else norm
  BAR_MIN_HEIGHT + norm * (BAR_MAX_HEIGHT - BAR_MIN_HEIGHT)

/-- The index `(od->rms_head + i) % ITEM_COUNT` as an index of the array. -/
def ringIndex (head : Nat) (i : Nat) : Fin ITEM_COUNT :=
  ⟨(head + i) % ITEM_COUNT, Nat.mod_lt _ (by decide)⟩

/-- The store `od->rms_ring[od->rms_head] = rms`.  A head outside the array
(never produced by the code) leaves the array as it is. -/
def ringWrite (ring : Fin ITEM_COUNT → ℚ) (head : Nat) (rms : ℚ) :
    Fin ITEM_COUNT → ℚ :=
  if h : head < ITEM_COUNT then Function.update ring ⟨head, h⟩ rms else ring

/-- The function `idle_push_rms` on the overlay data: write the sample at the
head, advance the head modulo `ITEM_COUNT`, then recompute every bar target
from the ring read at `(rms_head + i) % ITEM_COUNT`. -/
def idle_push_rms (od : OverlayData) (rms : ℚ) : OverlayData :=
  let ring := ringWrite od.rms_ring od.rms_head rms
  let head := (od.rms_head + 1) % ITEM_COUNT
  { od with
    rms_ring := ring
    rms_head := head
    bar_targets := fun i => targetHeight (ring (ringIndex head i.val)) }

/-- The function `idle_set_state`: store the requested state. -/
def idle_set_state (od : OverlayData) (state : Int) : OverlayData :=
  { od with state := state }

/-- The function `animation_tick`: advance both clocks by `1/60` and move
every bar height to `height * 0.7 + target * 0.3`. -/
def animation_tick (od : OverlayData) : OverlayData :=
  let dt : ℚ := 1 / 60
  { od with
    anim_time := od.anim_time + dt
    shimmer_phase := od.shimmer_phase + dt
    bar_heights := fun i => od.bar_heights i * (7 / 10) + od.bar_targets i * (3 / 10) }

/-- Push a sequence of samples, first to last, through `idle_push_rms`. -/
def pushAll (od : OverlayData) (samples : List ℚ) : OverlayData :=
  samples.foldl idle_push_rms od

/-- The ring read from the head: slot `(rms_head + i) % ITEM_COUNT`. -/
def readFromHead (od : OverlayData) (i : Nat) : ℚ :=
  od.rms_ring (ringIndex od.rms_head i)

/-! ## X11 constants (`X11/X.h`, `X11/keysymdef.h`) -/

def KeyPress : Int := 2
def KeyRelease : Int := 3

def ShiftMask : Nat := 1
def LockMask : Nat := 2
def ControlMask : Nat := 4
def Mod1Mask : Nat := 8
def Mod2Mask : Nat := 16
def Mod4Mask : Nat := 64

def XK_space : Nat := 0x0020
def XK_Tab : Nat := 0xff09
def XK_Return : Nat := 0xff0d
def XK_F1 : Nat := 0xffbe

/-! ## Hotkey event filter -/

/-- The fields of an `XEvent` that `x11_event_filter` reads: `type`,
`xkey.keycode` and `xkey.state` (both `unsigned int`). -/
structure XEvent where
  type : Int
  keycode : Nat
  state : Nat

inductive GdkFilterReturn where
  | GDK_FILTER_CONTINUE
  | GDK_FILTER_TRANSLATE
  | GDK_FILTER_REMOVE
  deriving DecidableEq, Repr

/-- One call of an application callback: `od->down_cb()` or `od->up_cb()`. -/
inductive Callback where
  | down
  | up
  deriving DecidableEq, Repr

/-- The cast `(int)` of an `unsigned int` value (two's complement, 32 bits). -/
def castInt (n : Nat) : Int :=
  if n % 2 ^ 32 < 2 ^ 31 then ((n % 2 ^ 32 : Nat) : Int)
  else ((n % 2 ^ 32 : Nat) : Int) - 2 ^ 32

/-- What one run of `x11_event_filter` leaves behind: the overlay data, the
callbacks it called, and its return value. -/
structure FilterResult where
  od : OverlayData
  calls : List Callback
  ret : GdkFilterReturn

/-- The function `x11_event_filter`. -/
def x11_event_filter (od : OverlayData) (xe : XEvent) : FilterResult :=
  if xe.type = KeyPress then
    if castInt xe.keycode = od.hk_keycode ∧ (xe.state &&& od.hk_mods) = od.hk_mods then
      if od.hk_pressed = false then
        { od := { od with hk_pressed := true }
          calls := if od.down_cb then [Callback.down] else []
          ret := GdkFilterReturn.GDK_FILTER_REMOVE }
      else
        { od := od, calls := [], ret := GdkFilterReturn.GDK_FILTER_REMOVE }
    else
      { od := od, calls := [], ret := GdkFilterReturn.GDK_FILTER_CONTINUE }
  else if xe.type = KeyRelease then
    if castInt xe.keycode = od.hk_keycode then
      if od.hk_pressed = true then
        { od := { od with hk_pressed := false }
          calls := if od.up_cb then [Callback.up] else []
          ret := GdkFilterReturn.GDK_FILTER_REMOVE }
      else
        { od := od, calls := [], ret := GdkFilterReturn.GDK_FILTER_REMOVE }
    else
      { od := od, calls := [], ret := GdkFilterReturn.GDK_FILTER_CONTINUE }
  else
    { od := od, calls := [], ret := GdkFilterReturn.GDK_FILTER_CONTINUE }

/-- Feed a sequence of events to `x11_event_filter`, first to last: the final
overlay data and all callbacks called, in order. -/
def filterAll (od : OverlayData) : List XEvent → OverlayData × List Callback
  | [] => (od, [])
  | xe :: rest =>
    let r := x11_event_filter od xe
    let out := filterAll r.od rest
    (out.1, r.calls ++ out.2)

/-- The array `lock_combos` of `overlay_install_hotkey`. -/
def lock_combos : List Nat := [0, LockMask, Mod2Mask, LockMask ||| Mod2Mask]

/-! ## Trigger parsing -/

def str_ctrl : List Char := ['c', 't', 'r', 'l']
def str_shift : List Char := ['s', 'h', 'i', 'f', 't']
def str_alt : List Char := ['a', 'l', 't']
def str_super : List Char := ['s', 'u', 'p', 'e', 'r']
def str_space : List Char := ['s', 'p', 'a', 'c', 'e']
def str_enter : List Char := ['e', 'n', 't', 'e', 'r']
def str_tab : List Char := ['t', 'a', 'b']

/-- One call of `strtok` with the delimiter set `"+"` on the text still to be
scanned: skip leading delimiters; at the end of the text there is no token;
otherwise the token runs up to the next delimiter, which is consumed. -/
def strtok (s : List Char) : Option (List Char × List Char) :=
  let s1 := s.dropWhile (fun c => c == '+')
  if s1 = [] then none
  else some (s1.takeWhile (fun c => c != '+'),
             (s1.dropWhile (fun c => c != '+')).drop 1)

/-- The `if / else if` chain in the loop of `parse_x11_mods`: the mask a token
adds. -/
def tokenMask (tok : List Char) : Nat :=
  if tok = str_ctrl then ControlMask
  else if tok = str_shift then ShiftMask
  else if tok = str_alt then Mod1Mask
  else if tok = str_super then Mod4Mask
  else 0

set_option linter.unusedVariables false in
/-- The `while (tok)` loop of `parse_x11_mods`, from the text still to be
scanned and the mask accumulated so far. -/
def parse_x11_mods_loop (s : List Char) (mods : Nat) : Nat :=
  match h : strtok s with
  | none => mods
  | some (tok, rest) => parse_x11_mods_loop rest (mods ||| tokenMask tok)
termination_by s.length
decreasing_by
  unfold strtok at h
  simp only at h
  split at h
  · exact absurd h (by simp)
  · rename_i hne
    simp only [Option.some.injEq, Prod.mk.injEq] at h
    obtain ⟨-, hrest⟩ := h
    have h1 : (List.dropWhile (fun c => c == '+') s).length ≤ s.length :=
      (List.dropWhile_sublist _).length_le
    have h2 : (List.dropWhile (fun c => c != '+')
        (List.dropWhile (fun c => c == '+') s)).length ≤
        (List.dropWhile (fun c => c == '+') s).length :=
      (List.dropWhile_sublist _).length_le
    have h3 : 0 < (List.dropWhile (fun c => c == '+') s).length :=
      List.length_pos.mpr hne
    rw [← hrest, List.length_drop]
    omega

/-- The function `parse_x11_mods`. -/
def parse_x11_mods (trigger : List Char) : Nat :=
  parse_x11_mods_loop trigger 0

/-- The call `strrchr(s, c)`: the text from the last occurrence of `c` on, or
`none` (NULL) when `c` does not occur. -/
def strrchr (c : Char) : List Char → Option (List Char)
  | [] => none
  | x :: xs =>
    match strrchr c xs with
    | some r => some r
    | none => if x = c then some (x :: xs) else none

/-- The `isspace` test of the C locale. -/
def isspace (c : Char) : Bool :=
  c = ' ' || c = '\t' || c = '\n' || c = '\r' || c.toNat = 11 || c.toNat = 12

/-- The digit loop of `atoi`. -/
def atoiDigits (acc : Nat) : List Char → Nat
  | [] => acc
  | c :: cs => if c.isDigit then atoiDigits (acc * 10 + (c.toNat - 48)) cs else acc

/-- The number `strtol(s, NULL, 10)` reads before any range check: leading
white space, an optional sign, then decimal digits. -/
def strtolValue (s : List Char) : Int :=
  match s.dropWhile isspace with
  | '-' :: cs => - (atoiDigits 0 cs : Int)
  | '+' :: cs => (atoiDigits 0 cs : Int)
  | cs => (atoiDigits 0 cs : Int)

/-- The call `atoi(s)` as glibc computes it on a platform with 64-bit `long`,
`(int) strtol(s, NULL, 10)`: the number read saturates at the range of `long`,
and the cast to `int` keeps its low 32 bits. -/
def atoi (s : List Char) : Int :=
  let v := strtolValue s
  let l : Int :=
    if v < -(2 ^ 63) then -(2 ^ 63) else if 2 ^ 63 - 1 < v then 2 ^ 63 - 1 else v
  (l + 2 ^ 31) % 2 ^ 32 - 2 ^ 31

/-- The function `parse_x11_keysym` once `key_str` is known.  The Xlib call
`XStringToKeysym` is a parameter. -/
def keysymOfKeyStr (XStringToKeysym : List Char → Nat) (key_str : List Char) : Nat :=
  if key_str = str_space then XK_space
  else if key_str = str_enter then XK_Return
  else if key_str = str_tab then XK_Tab
  else if key_str.length = 1 then XStringToKeysym (key_str.take 1)
  else if key_str.head? = some 'f' ∨ key_str.head? = some 'F' then
    let n := atoi (key_str.drop 1)
    if 1 ≤ n ∧ n ≤ 12 then XK_F1 + (n - 1).toNat
    else XStringToKeysym key_str
  else XStringToKeysym key_str

/-- The function `parse_x11_keysym`: `key_str` is the text after the last
`+` of the trigger, or the whole trigger when it has no `+`. -/
def parse_x11_keysym (XStringToKeysym : List Char → Nat) (trigger : List Char) : Nat :=
  let key_str :=
    match strrchr '+' trigger with
    | some p => p.drop 1
    | none => trigger
  keysymOfKeyStr XStringToKeysym key_str

/-! ## Inputs and predicates used to state the properties -/

/-- An overlay with the hotkey `ctrl+space` installed (keycode 65, both
callbacks set), as left by `overlay_install_hotkey`. -/
def hotkeyOverlay : OverlayData :=
  { overlay_create with
    down_cb := true, up_cb := true, hk_keycode := 65, hk_mods := ControlMask }

/-- The four modifiers a trigger can require. -/
def allModsMask : Nat := ControlMask ||| ShiftMask ||| Mod1Mask ||| Mod4Mask

/-- The overlay of `hotkeyOverlay` while the hotkey is held. -/
def heldOverlay : OverlayData :=
  { hotkeyOverlay with hk_pressed := true }

/-- The three operations that act on the overlay data after creation. -/
inductive Op where
  | setState (state : Int)
  | tick
  | push (rms : ℚ)

/-- Apply one operation: `idle_set_state`, `animation_tick` or
`idle_push_rms`. -/
def applyOp (od : OverlayData) : Op → OverlayData
  | Op.setState state => idle_set_state od state
  | Op.tick => animation_tick od
  | Op.push rms => idle_push_rms od rms

/-- Apply a sequence of operations, first to last. -/
def runOps (od : OverlayData) (ops : List Op) : OverlayData :=
  ops.foldl applyOp od

/-- The invariant behind the height bounds: every ring slot is non-negative
and every target and height lies in `[BAR_MIN_HEIGHT, BAR_MAX_HEIGHT]`. -/
def BarsBounded (od : OverlayData) : Prop :=
  (∀ j, 0 ≤ od.rms_ring j) ∧
  (∀ i, BAR_MIN_HEIGHT ≤ od.bar_targets i ∧ od.bar_targets i ≤ BAR_MAX_HEIGHT) ∧
  (∀ i, BAR_MIN_HEIGHT ≤ od.bar_heights i ∧ od.bar_heights i ≤ BAR_MAX_HEIGHT)

/-- The modifier words of the trigger grammar. -/
inductive Modifier where
  | ctrl
  | shift
  | alt
  | super
  deriving DecidableEq, Repr

/-- The word written in the trigger for a modifier. -/
def Modifier.text : Modifier → List Char
  | Modifier.ctrl => str_ctrl
  | Modifier.shift => str_shift
  | Modifier.alt => str_alt
  | Modifier.super => str_super

/-- The X11 mask named for a modifier. -/
def Modifier.mask : Modifier → Nat
  | Modifier.ctrl => ControlMask
  | Modifier.shift => ShiftMask
  | Modifier.alt => Mod1Mask
  | Modifier.super => Mod4Mask

/-- The trigger string `m1+...+mk+key`. -/
def triggerText : List Modifier → List Char → List Char
  | [], key => key
  | m :: rest, key => m.text ++ '+' :: triggerText rest key

/-- The bitwise OR of the masks of a list of modifiers. -/
def orMasks : List Modifier → Nat
  | [] => 0
  | m :: rest => m.mask ||| orMasks rest

/-- The text of function key `n`: the letter `f` or `F`, then `n` in decimal. -/
def functionKeyText (upper : Bool) (n : Nat) : List Char :=
  (if upper then 'F' else 'f') :: (Nat.repr n).toList

/-- The keys of the trigger grammar: a named key, a single character, or a
function key `f1` to `f12` in either case. -/
def IsKey (key : List Char) : Prop :=
  key = str_space ∨ key = str_enter ∨ key = str_tab ∨ (∃ c : Char, key = [c]) ∨
    ∃ (upper : Bool) (n : Nat), 1 ≤ n ∧ n ≤ 12 ∧ key = functionKeyText upper n

/-- The alpha of dot `i` at `anim_time = t`, from the loop body of
`draw_idle_dots`:
`phi = 2.0 * M_PI * t / 4.0 + i * 2.0 * M_PI / (double)ITEM_COUNT`,
`s = sin(phi)`, `a = 0.35 + 0.65 * s * s`.  The libm function `sin` and the
constant `M_PI` are parameters, and the arithmetic is that of a field `R`. -/
def dotAlpha {R : Type} [Field R] (sin : R → R) (M_PI : R) (i : Nat) (t : R) : R :=
  let phi := 2 * M_PI * t / 4 + (i : R) * 2 * M_PI / (ITEM_COUNT : R)
  let s := sin phi
  35 / 100 + 65 / 100 * s * s

/-! ## The code's floating-point arithmetic

The properties that are not stated over exact arithmetic are settled on a
second reading of the same code, in which every `double` operation is rounded
on its own to the nearest binary64 value, ties to even (no fused
multiply-add, no extended precision), and a `float` sample is a binary32
value (exactly representable as a `double`).  Infinities and NaN are not
modelled: the values that occur stay far inside the finite range. -/

/-- Round a rational to the nearest integer, ties to the even one. -/
def roundNearestEven (y : ℚ) : ℤ :=
  let f := ⌊y⌋
  let r := y - f
  if r < 1 / 2 then f
  else if 1 / 2 < r then f + 1
  else if f % 2 = 0 then f
  else f + 1

/-- Round to the nearest value of a binary floating-point format with `prec`
significant bits and least normal exponent `emin`, ties to even.  The exponent
of `q` is `⌊log2 |q|⌋`, not below `emin` (subnormal range); the result is a
multiple of the unit in the last place `2 ^ (e - (prec - 1))`.  Zero rounds to
zero. -/
def roundBinary (prec : Nat) (emin : Int) (q : ℚ) : ℚ :=
  let e := max (Int.log 2 |q|) emin
  let ulp : ℚ := 2 ^ (e - ((prec : Int) - 1))
  (roundNearestEven (q / ulp) : ℚ) * ulp

/-- Rounding to `double` (IEEE 754 binary64). -/
def roundDouble (q : ℚ) : ℚ := roundBinary 53 (-1022) q

/-- Rounding to `float` (IEEE 754 binary32). -/
def roundFloat (q : ℚ) : ℚ := roundBinary 24 (-126) q

/-- The constant `RMS_SCALE` as the compiler reads it: the `double` nearest
to `0.08`. -/
def RMS_SCALE_double : ℚ := roundDouble (8 / 100)

/-- The body of the target loop of `idle_push_rms` in the code's arithmetic:
`norm = rms / RMS_SCALE` is a `double` division of the promoted `float`
sample, and `BAR_MIN_HEIGHT + norm * (BAR_MAX_HEIGHT - BAR_MIN_HEIGHT)` rounds
the product and then the sum (`4.0`, `40.0` and `36.0` are exact). -/
def targetHeightDouble (rms : ℚ) : ℚ :=
  let norm := roundDouble (rms / RMS_SCALE_double)
  let norm := if norm > 1 then 1 else norm
  roundDouble (BAR_MIN_HEIGHT +
    roundDouble (norm * roundDouble (BAR_MAX_HEIGHT - BAR_MIN_HEIGHT)))

/-- The function `idle_push_rms` with the targets computed in the code's
arithmetic. -/
def idle_push_rms_double (od : OverlayData) (rms : ℚ) : OverlayData :=
  let ring := ringWrite od.rms_ring od.rms_head rms
  let head := (od.rms_head + 1) % ITEM_COUNT
  { od with
    rms_ring := ring
    rms_head := head
    bar_targets := fun i => targetHeightDouble (ring (ringIndex head i.val)) }

/-- The function `animation_tick` in the code's arithmetic: `dt`, `0.7` and
`0.3` are the nearest `double`s, and every sum and product is rounded. -/
def animation_tick_double (od : OverlayData) : OverlayData :=
  let dt : ℚ := roundDouble (1 / 60)
  { od with
    anim_time := roundDouble (od.anim_time + dt)
    shimmer_phase := roundDouble (od.shimmer_phase + dt)
    bar_heights := fun i =>
      roundDouble (roundDouble (od.bar_heights i * roundDouble (7 / 10)) +
        roundDouble (od.bar_targets i * roundDouble (3 / 10))) }

/-- Push one level and run one animation tick, in the code's arithmetic. -/
def pushThenTick (od : OverlayData) (rms : ℚ) : OverlayData :=
  animation_tick_double (idle_push_rms_double od rms)

/-- A fresh overlay set to Recording, then each level pushed and followed by
one tick. -/
def recordLevels (levels : List ℚ) : OverlayData :=
  levels.foldl pushThenTick (idle_set_state overlay_create OVERLAY_STATE_RECORDING)

/-- The seven levels of the scenario as the `float` parameter of the push
receives them: the `float`s nearest `0.02`, `0.04` and `0.08`. -/
def scenarioLevels : List ℚ :=
  [roundFloat (2 / 100), roundFloat (4 / 100), roundFloat (8 / 100),
   roundFloat (8 / 100), roundFloat (8 / 100), roundFloat (8 / 100),
   roundFloat (8 / 100)]

/-! ## Ring buffer lemmas -/

theorem pushAll_append (od : OverlayData) (xs ys : List ℚ) :
    pushAll od (xs ++ ys) = pushAll (pushAll od xs) ys := by
  simp [pushAll, List.foldl_append]

theorem pushAll_snoc (od : OverlayData) (xs : List ℚ) (x : ℚ) :
    pushAll od (xs ++ [x]) = idle_push_rms (pushAll od xs) x := by
  simp [pushAll, List.foldl_append]

/-- After pushing `xs` from a fresh overlay the head is `xs.length % 7`, and
each of the last seven positions `p` of `xs` is stored in slot `p % 7`. -/
theorem pushAll_ring (xs : List ℚ) :
    (pushAll overlay_create xs).rms_head = xs.length % ITEM_COUNT ∧
    ∀ p (hp : p < xs.length), xs.length ≤ p + ITEM_COUNT →
      (pushAll overlay_create xs).rms_ring (ringIndex p 0) = xs.get ⟨p, hp⟩ := by
  induction xs using List.reverseRecOn with
  | nil => exact ⟨rfl, fun p hp => absurd hp (Nat.not_lt_zero p)⟩
  | append_singleton xs x ih =>
    obtain ⟨ihh, ihr⟩ := ih
    rw [pushAll_snoc]
    have hlt : xs.length % ITEM_COUNT < ITEM_COUNT := Nat.mod_lt _ (by decide)
    refine ⟨?_, ?_⟩
    · simp only [idle_push_rms, ihh, List.length_append, List.length_singleton]
      simp [Nat.add_mod]
    · intro p hp hle
      simp only [List.length_append, List.length_singleton] at hp hle
      simp only [idle_push_rms, ihh, ringWrite, hlt, dite_true]
      by_cases hpn : p = xs.length
      · subst hpn
        have : ringIndex xs.length 0 = ⟨xs.length % ITEM_COUNT, hlt⟩ := by
          simp [ringIndex]
        rw [this, Function.update_same]
        simp
      · have hp' : p < xs.length := by omega
        have hne : ringIndex p 0 ≠ ⟨xs.length % ITEM_COUNT, hlt⟩ := by
          intro h
          have := congrArg Fin.val h
          simp only [ringIndex, Nat.add_zero, ITEM_COUNT] at this
          simp only [ITEM_COUNT] at hle
          omega
        rw [Function.update_noteq hne, ihr p hp' (by omega)]
        simp [List.getElem_append_left, hp']

/-- Claim C1 (ring buffer wraparound).  Starting from a freshly created
overlay, after pushing `N + k` samples (`N = ITEM_COUNT = 7`, `k > 0`) through
`idle_push_rms`, reading `rms_ring` at `(rms_head + i) % N` for `i = 0 .. N-1`
yields exactly the last `N` pushed values, oldest first. -/
theorem ring_wraparound (xs : List ℚ) (k : Nat) (_hk : 0 < k)
    (hlen : xs.length = ITEM_COUNT + k) :
    (List.range ITEM_COUNT).map (readFromHead (pushAll overlay_create xs)) =
      xs.drop k := by
  obtain ⟨hh, hr⟩ := pushAll_ring xs
  apply List.ext_getElem
  · simp [hlen]
  · intro i h1 h2
    simp only [List.length_map, List.length_range] at h1
    have hp : k + i < xs.length := by omega
    have hidx : ringIndex (xs.length % ITEM_COUNT) i = ringIndex (k + i) 0 := by
      apply Fin.ext
      simp only [ringIndex, hlen, ITEM_COUNT]
      omega
    simp only [List.getElem_map, List.getElem_range, readFromHead, hh, hidx,
      List.getElem_drop]
    rw [hr (k + i) hp (by omega)]
    simp

/-- The claim C1 at a concrete input: eight samples pushed into the
seven-slot ring. -/
theorem ring_wraparound_witness :
    (List.range ITEM_COUNT).map
        (readFromHead (pushAll overlay_create [1, 2, 3, 4, 5, 6, 7, 8])) =
      [2, 3, 4, 5, 6, 7, 8] :=
  ring_wraparound [1, 2, 3, 4, 5, 6, 7, 8] 1 (by decide) (by decide)

/-! ## Hotkey filter lemmas -/

/-- The three ways one event can act on the edge state when both callbacks
are installed: nothing is called and the state stays, or a press edge calls
`down`, or a release edge calls `up`.  The callbacks stay installed. -/
theorem x11_event_filter_cases (od : OverlayData) (xe : XEvent)
    (hd : od.down_cb = true) (hu : od.up_cb = true) :
    ((x11_event_filter od xe).od.down_cb = true ∧
      (x11_event_filter od xe).od.up_cb = true) ∧
    (((x11_event_filter od xe).calls = [] ∧
        (x11_event_filter od xe).od.hk_pressed = od.hk_pressed) ∨
      (od.hk_pressed = false ∧ (x11_event_filter od xe).calls = [Callback.down] ∧
        (x11_event_filter od xe).od.hk_pressed = true) ∨
      (od.hk_pressed = true ∧ (x11_event_filter od xe).calls = [Callback.up] ∧
        (x11_event_filter od xe).od.hk_pressed = false)) := by
  unfold x11_event_filter
  cases hp : od.hk_pressed <;> split_ifs <;> simp_all

theorem filterAll_cons (od : OverlayData) (xe : XEvent) (rest : List XEvent) :
    (filterAll od (xe :: rest)).2 =
      (x11_event_filter od xe).calls ++ (filterAll (x11_event_filter od xe).od rest).2 :=
  rfl

theorem filterAll_alternates_from (evs : List XEvent) :
    ∀ (od : OverlayData), od.down_cb = true → od.up_cb = true →
    ∀ i, i < (filterAll od evs).2.length →
      (filterAll od evs).2[i]? =
        some (if (i + (if od.hk_pressed = true then 1 else 0)) % 2 = 0 then Callback.down
          else Callback.up) := by
  induction evs with
  | nil => intro od _ _ i h; simp [filterAll] at h
  | cons xe rest ih =>
    intro od hd hu i h
    obtain ⟨⟨hd', hu'⟩, hc⟩ := x11_event_filter_cases od xe hd hu
    have ih' := ih (x11_event_filter od xe).od hd' hu'
    rw [filterAll_cons] at h ⊢
    rcases hc with ⟨hc, hp⟩ | ⟨hp0, hc, hp⟩ | ⟨hp0, hc, hp⟩
    · rw [hc, List.nil_append] at h ⊢
      rw [ih' i h, hp]
    · rw [hc, List.singleton_append] at h ⊢
      cases i with
      | zero => simp [hp0]
      | succ j =>
        rw [List.length_cons, Nat.add_lt_add_iff_right] at h
        rw [List.getElem?_cons_succ, ih' j h, hp, hp0]
        simp
    · rw [hc, List.singleton_append] at h ⊢
      cases i with
      | zero => simp [hp0]
      | succ j =>
        rw [List.length_cons, Nat.add_lt_add_iff_right] at h
        rw [List.getElem?_cons_succ, ih' j h, hp, hp0]
        have : (j + 1 + 1) % 2 = j % 2 := by omega
        simp [this]

/-- Claim C2 (hotkey edge detection).  With both callbacks installed and
`hk_pressed = FALSE` at the start, for every sequence of events fed to
`x11_event_filter` the callbacks called alternate down, up, down, ...
beginning with down; a press while pressed and a release while released call
nothing; and `[press, press, release, release]` with matching keycode and
modifiers calls `down` once and `up` once. -/
theorem hotkey_edge_detection (od : OverlayData)
    (hrel : od.hk_pressed = false) (hd : od.down_cb = true) (hu : od.up_cb = true) :
    (∀ (evs : List XEvent) (i : Nat) (h : i < (filterAll od evs).2.length),
        (filterAll od evs).2.get ⟨i, h⟩ =
          if i % 2 = 0 then Callback.down else Callback.up) ∧
    (∀ (od1 : OverlayData) (xe : XEvent),
        (xe.type = KeyPress → od1.hk_pressed = true →
          (x11_event_filter od1 xe).calls = []) ∧
        (xe.type = KeyRelease → od1.hk_pressed = false →
          (x11_event_filter od1 xe).calls = [])) ∧
    (∀ p1 p2 r1 r2 : XEvent,
        (∀ xe ∈ [p1, p2], xe.type = KeyPress ∧ castInt xe.keycode = od.hk_keycode ∧
          xe.state &&& od.hk_mods = od.hk_mods) →
        (∀ xe ∈ [r1, r2], xe.type = KeyRelease ∧ castInt xe.keycode = od.hk_keycode ∧
          xe.state &&& od.hk_mods = od.hk_mods) →
        (filterAll od [p1, p2, r1, r2]).2 = [Callback.down, Callback.up] ∧
        (filterAll od [p1, p2, r1, r2]).1.hk_pressed = false) := by
  refine ⟨?_, ?_, ?_⟩
  · intro evs i h
    have hi := filterAll_alternates_from evs od hd hu i h
    rw [List.getElem?_eq_getElem h, hrel] at hi
    simpa using hi
  · intro od1 xe
    constructor
    · intro ht hp
      simp only [x11_event_filter, ht, hp, if_true]
      split_ifs <;> first | rfl | contradiction
    · intro ht hp
      have hne : KeyRelease ≠ KeyPress := by decide
      simp only [x11_event_filter, ht, hp, hne, if_true, if_false]
      split_ifs <;> first | rfl | contradiction
  · intro p1 p2 r1 r2 hp hr
    have hne : KeyRelease ≠ KeyPress := by decide
    obtain ⟨h1t, h1k, h1m⟩ := hp p1 (by simp)
    obtain ⟨h2t, h2k, h2m⟩ := hp p2 (by simp)
    obtain ⟨h3t, h3k, h3m⟩ := hr r1 (by simp)
    obtain ⟨h4t, h4k, h4m⟩ := hr r2 (by simp)
    simp [filterAll, x11_event_filter, h1t, h1k, h1m, h2t, h2k, h2m, h3t, h3k, h4t, h4k,
      hrel, hd, hu, hne]

/-- The claim C2 at a concrete input: key repeat while `ctrl+space` is held,
then two releases. -/
theorem hotkey_edge_detection_witness :
    (filterAll hotkeyOverlay
      [⟨KeyPress, 65, ControlMask⟩, ⟨KeyPress, 65, ControlMask⟩,
       ⟨KeyRelease, 65, ControlMask⟩, ⟨KeyRelease, 65, ControlMask⟩]).2 =
      [Callback.down, Callback.up] :=
  ((hotkey_edge_detection hotkeyOverlay rfl rfl rfl).2.2
    ⟨KeyPress, 65, ControlMask⟩ ⟨KeyPress, 65, ControlMask⟩
    ⟨KeyRelease, 65, ControlMask⟩ ⟨KeyRelease, 65, ControlMask⟩
    (by decide) (by decide)).1

/-! ## Modifier masks and lock keys -/

theorem tokenMask_subset (tok : List Char) :
    tokenMask tok &&& allModsMask = tokenMask tok := by
  unfold tokenMask
  split_ifs <;> decide

theorem parse_x11_mods_loop_subset (s : List Char) :
    ∀ mods : Nat, mods &&& allModsMask = mods →
      parse_x11_mods_loop s mods &&& allModsMask = parse_x11_mods_loop s mods := by
  induction s using Nat.strongRecMeasure List.length with
  | ind s ih =>
    intro mods hm
    rw [parse_x11_mods_loop]
    split
    · exact hm
    · rename_i tok rest heq
      apply ih rest (by
        unfold strtok at heq
        simp only at heq
        split at heq
        · exact absurd heq (by simp)
        · simp only [Option.some.injEq, Prod.mk.injEq] at heq
          rw [← heq.2, List.length_drop]
          have h1 := (List.dropWhile_sublist (fun c => c == '+') (l := s)).length_le
          have h2 := (List.dropWhile_sublist (fun c => c != '+')
            (l := List.dropWhile (fun c => c == '+') s)).length_le
          have h3 : 0 < (List.dropWhile (fun c => c == '+') s).length :=
            List.length_pos.mpr (by assumption)
          omega)
      rw [Nat.and_distrib_right, hm, tokenMask_subset]

/-- The mask returned by `parse_x11_mods` is a subset of
`ControlMask | ShiftMask | Mod1Mask | Mod4Mask`. -/
theorem parse_x11_mods_subset (trigger : List Char) :
    parse_x11_mods trigger &&& allModsMask = parse_x11_mods trigger :=
  parse_x11_mods_loop_subset trigger 0 (by decide)

theorem lock_and_mods (lock m : Nat) (hl : lock ∈ lock_combos)
    (hm : m &&& allModsMask = m) : lock &&& m = 0 := by
  have h0 : lock &&& allModsMask = 0 := by
    simp only [lock_combos, List.mem_cons, List.mem_singleton, List.not_mem_nil,
      or_false] at hl
    rcases hl with rfl | rfl | rfl | rfl <;> decide
  rw [← hm, Nat.and_comm m, ← Nat.and_assoc, h0, Nat.zero_and]

/-- Claim C3 (lock-key invariance).  When the required mask is the one
`parse_x11_mods` produced for the trigger, OR-ing any of the four lock
combinations `0`, `LockMask`, `Mod2Mask`, `LockMask | Mod2Mask` into the
modifier state of an event leaves the outcome of `x11_event_filter` unchanged:
same overlay data (so the same `hk_pressed`), same callbacks, same return
value. -/
theorem lock_key_invariance (trigger : List Char) (od : OverlayData) (xe : XEvent)
    (lock : Nat) (hmods : od.hk_mods = parse_x11_mods trigger)
    (hlock : lock ∈ lock_combos) :
    x11_event_filter od { xe with state := xe.state ||| lock } =
      x11_event_filter od xe := by
  have hz : lock &&& od.hk_mods = 0 :=
    lock_and_mods lock od.hk_mods hlock (hmods ▸ parse_x11_mods_subset trigger)
  have hs : (xe.state ||| lock) &&& od.hk_mods = xe.state &&& od.hk_mods := by
    rw [Nat.and_distrib_right, hz, Nat.or_zero]
  simp only [x11_event_filter, hs]

/-- The claim C3 at a concrete input: `ctrl+space` pressed with caps lock and
num lock on. -/
theorem lock_key_invariance_witness :
    x11_event_filter hotkeyOverlay ⟨KeyPress, 65, ControlMask ||| (LockMask ||| Mod2Mask)⟩ =
      x11_event_filter hotkeyOverlay ⟨KeyPress, 65, ControlMask⟩ :=
  lock_key_invariance ['c', 't', 'r', 'l', '+', 's', 'p', 'a', 'c', 'e'] hotkeyOverlay
    ⟨KeyPress, 65, ControlMask⟩ (LockMask ||| Mod2Mask)
    (by simp [hotkeyOverlay, parse_x11_mods, parse_x11_mods_loop, strtok, tokenMask,
      str_ctrl, str_shift, str_alt, str_super, ControlMask])
    (by simp [lock_combos])

/-! ## Consumed and passed-through events -/

/-- Claim C4 as stated fails.  With `ctrl+space` held (`hk_mods = ControlMask`,
keycode 65), the release of key 65 after `ctrl` was let go arrives with
modifier state 0: it does not contain the required modifiers, yet the filter
returns `GDK_FILTER_REMOVE`, calls `up` and clears `hk_pressed`. -/
theorem consumed_iff_matched_counterexample :
    ¬ ((0 : Nat) &&& heldOverlay.hk_mods = heldOverlay.hk_mods) ∧
    (x11_event_filter heldOverlay ⟨KeyRelease, 65, 0⟩).ret =
      GdkFilterReturn.GDK_FILTER_REMOVE ∧
    (x11_event_filter heldOverlay ⟨KeyRelease, 65, 0⟩).calls = [Callback.up] ∧
    heldOverlay.hk_pressed = true ∧
    (x11_event_filter heldOverlay ⟨KeyRelease, 65, 0⟩).od.hk_pressed = false := by
  refine ⟨by decide, ?_, ?_, rfl, ?_⟩ <;>
    simp [x11_event_filter, heldOverlay, hotkeyOverlay, overlay_create, KeyRelease,
      KeyPress, castInt]

/-- Claim C4, amended.  A press matches when its keycode is the registered one
and its modifier state contains the required modifiers; a release matches when
its keycode is the registered one (its modifier state is not examined).  A
matching event makes `x11_event_filter` return `GDK_FILTER_REMOVE`; any other
event returns `GDK_FILTER_CONTINUE`, calls nothing and leaves the overlay
data, `hk_pressed` included, unchanged. -/
theorem consumed_iff_matched (od : OverlayData) (xe : XEvent) :
    (((xe.type = KeyPress ∧ castInt xe.keycode = od.hk_keycode ∧
          xe.state &&& od.hk_mods = od.hk_mods) ∨
        (xe.type = KeyRelease ∧ castInt xe.keycode = od.hk_keycode)) →
      (x11_event_filter od xe).ret = GdkFilterReturn.GDK_FILTER_REMOVE) ∧
    (¬ ((xe.type = KeyPress ∧ castInt xe.keycode = od.hk_keycode ∧
          xe.state &&& od.hk_mods = od.hk_mods) ∨
        (xe.type = KeyRelease ∧ castInt xe.keycode = od.hk_keycode)) →
      (x11_event_filter od xe).ret = GdkFilterReturn.GDK_FILTER_CONTINUE ∧
      (x11_event_filter od xe).calls = [] ∧
      (x11_event_filter od xe).od = od ∧
      (x11_event_filter od xe).od.hk_pressed = od.hk_pressed) := by
  have hne : KeyRelease ≠ KeyPress := by decide
  constructor
  · rintro (⟨ht, hk, hm⟩ | ⟨ht, hk⟩)
    · simp only [x11_event_filter, ht, hk, hm, and_self, if_true]
      split_ifs <;> rfl
    · simp only [x11_event_filter, ht, hk, hne, if_true, if_false]
      split_ifs <;> rfl
  · intro hno
    rw [not_or] at hno
    obtain ⟨h1, h2⟩ := hno
    unfold x11_event_filter
    by_cases ht : xe.type = KeyPress
    · have hc : ¬ (castInt xe.keycode = od.hk_keycode ∧
          xe.state &&& od.hk_mods = od.hk_mods) := fun h => h1 ⟨ht, h⟩
      simp only [ht, hc, if_true, if_false, and_self]
    · by_cases hr : xe.type = KeyRelease
      · have hc : ¬ castInt xe.keycode = od.hk_keycode := fun h => h2 ⟨hr, h⟩
        simp only [ht, hr, hc, hne, if_true, if_false, and_self]
      · simp only [ht, hr, if_false, and_self]

/-- The amended claim C4 at concrete inputs: the release of the counterexample
is consumed, and a press of another key passes through. -/
theorem consumed_iff_matched_witness :
    (x11_event_filter heldOverlay ⟨KeyRelease, 65, 0⟩).ret =
      GdkFilterReturn.GDK_FILTER_REMOVE ∧
    (x11_event_filter heldOverlay ⟨KeyPress, 38, ControlMask⟩).ret =
      GdkFilterReturn.GDK_FILTER_CONTINUE :=
  ⟨(consumed_iff_matched heldOverlay ⟨KeyRelease, 65, 0⟩).1
      (Or.inr ⟨rfl, by simp [castInt, heldOverlay, hotkeyOverlay]⟩),
   ((consumed_iff_matched heldOverlay ⟨KeyPress, 38, ControlMask⟩).2
      (by simp [castInt, heldOverlay, hotkeyOverlay, KeyPress, KeyRelease])).1⟩

/-! ## Target heights -/

theorem RMS_SCALE_pos : 0 < RMS_SCALE := by norm_num [RMS_SCALE]

/-- At or below full scale the normalised level is not clamped. -/
theorem targetHeight_of_le (r : ℚ) (h : r ≤ RMS_SCALE) :
    targetHeight r = BAR_MIN_HEIGHT + r / RMS_SCALE * (BAR_MAX_HEIGHT - BAR_MIN_HEIGHT) := by
  have hn : ¬ (r / RMS_SCALE > 1) := by
    rw [gt_iff_lt, not_lt, div_le_one RMS_SCALE_pos]
    exact h
  simp only [targetHeight, hn, if_false]

/-- At or above full scale the target is `BAR_MAX_HEIGHT`. -/
theorem targetHeight_of_ge (r : ℚ) (h : RMS_SCALE ≤ r) :
    targetHeight r = BAR_MAX_HEIGHT := by
  rcases h.eq_or_lt with heq | hlt
  · rw [targetHeight_of_le r heq.ge, ← heq, div_self RMS_SCALE_pos.ne.symm]
    ring
  · have hn : r / RMS_SCALE > 1 := by
      rw [gt_iff_lt, one_lt_div RMS_SCALE_pos]
      exact hlt
    simp only [targetHeight, hn, if_true]
    ring

/-- Claim C5 (normalisation monotonicity and saturation).  Over exact
arithmetic, `targetHeight a < targetHeight b` for any samples `a < b` that are
both at most `RMS_SCALE`, and `targetHeight r = BAR_MAX_HEIGHT` for any sample
`r ≥ RMS_SCALE`. -/
theorem targetHeight_monotone_saturates :
    (∀ a b : ℚ, a < b → a ≤ RMS_SCALE → b ≤ RMS_SCALE →
      targetHeight a < targetHeight b) ∧
    (∀ r : ℚ, RMS_SCALE ≤ r → targetHeight r = BAR_MAX_HEIGHT) := by
  refine ⟨?_, targetHeight_of_ge⟩
  intro a b hab ha hb
  rw [targetHeight_of_le a ha, targetHeight_of_le b hb]
  have hd : a / RMS_SCALE < b / RMS_SCALE := div_lt_div_of_pos_right hab RMS_SCALE_pos
  have hspan : (0 : ℚ) < BAR_MAX_HEIGHT - BAR_MIN_HEIGHT := by
    norm_num [BAR_MAX_HEIGHT, BAR_MIN_HEIGHT]
  have := mul_lt_mul_of_pos_right hd hspan
  linarith

/-- The claim C5 at concrete inputs: a quarter and a half of full scale, and a
sample above full scale. -/
theorem targetHeight_monotone_saturates_witness :
    targetHeight (2 / 100) < targetHeight (4 / 100) ∧
    targetHeight (1 / 2) = BAR_MAX_HEIGHT :=
  ⟨targetHeight_monotone_saturates.1 (2 / 100) (4 / 100) (by norm_num)
      (by norm_num [RMS_SCALE]) (by norm_num [RMS_SCALE]),
   targetHeight_monotone_saturates.2 (1 / 2) (by norm_num [RMS_SCALE])⟩

/-! ## Smoothing -/

theorem animation_tick_iterate_targets (od : OverlayData) (k : Nat) :
    (animation_tick^[k] od).bar_targets = od.bar_targets := by
  induction k with
  | zero => rfl
  | succ k ih => rw [Function.iterate_succ_apply', ← ih]; rfl

/-- With the targets held constant, `k` ticks scale the signed distance of a
bar from its target by `0.7 ^ k`. -/
theorem animation_tick_iterate_error (od : OverlayData) (i : Fin ITEM_COUNT) (k : Nat) :
    (animation_tick^[k] od).bar_heights i - od.bar_targets i =
      (7 / 10) ^ k * (od.bar_heights i - od.bar_targets i) := by
  induction k with
  | zero => simp
  | succ k ih =>
    have ht := animation_tick_iterate_targets od k
    rw [Function.iterate_succ_apply']
    have hstep : (animation_tick (animation_tick^[k] od)).bar_heights i =
        (animation_tick^[k] od).bar_heights i * (7 / 10) +
          (animation_tick^[k] od).bar_targets i * (3 / 10) := rfl
    rw [hstep, ht, pow_succ]
    linear_combination (7 / 10 : ℚ) * ih

/-- Claim C8 (smoothing convergence).  Over exact arithmetic, for every bar
with constant target `T` and initial height `H0`, the height `h_k` after `k`
applications of `animation_tick` satisfies `|h_k - T| = 0.7 ^ k * |H0 - T|`. -/
theorem smoothing_convergence (od : OverlayData) (i : Fin ITEM_COUNT) (k : Nat) :
    |(animation_tick^[k] od).bar_heights i - od.bar_targets i| =
      (7 / 10) ^ k * |od.bar_heights i - od.bar_targets i| := by
  rw [animation_tick_iterate_error, abs_mul, abs_of_nonneg]
  positivity

/-! ## Bar height bounds -/

theorem targetHeight_bounds (r : ℚ) (h : 0 ≤ r) :
    BAR_MIN_HEIGHT ≤ targetHeight r ∧ targetHeight r ≤ BAR_MAX_HEIGHT := by
  rcases le_total r RMS_SCALE with hle | hge
  · rw [targetHeight_of_le r hle]
    have h0 : 0 ≤ r / RMS_SCALE := div_nonneg h RMS_SCALE_pos.le
    have h1 : r / RMS_SCALE ≤ 1 := (div_le_one RMS_SCALE_pos).mpr hle
    simp only [BAR_MIN_HEIGHT, BAR_MAX_HEIGHT]
    constructor <;> nlinarith
  · rw [targetHeight_of_ge r hge]
    norm_num [BAR_MIN_HEIGHT, BAR_MAX_HEIGHT]

theorem BarsBounded_create : BarsBounded overlay_create := by
  refine ⟨fun _ => le_refl _, fun _ => ?_, fun _ => ?_⟩ <;>
    norm_num [overlay_create, BAR_MIN_HEIGHT, BAR_MAX_HEIGHT]

theorem BarsBounded_push (od : OverlayData) (r : ℚ) (h : BarsBounded od) (hr : 0 ≤ r) :
    BarsBounded (idle_push_rms od r) := by
  obtain ⟨hring, -, hh⟩ := h
  have hring' : ∀ j, 0 ≤ ringWrite od.rms_ring od.rms_head r j := by
    intro j
    unfold ringWrite
    split_ifs with hlt
    · by_cases hj : j = ⟨od.rms_head, hlt⟩
      · rw [hj, Function.update_same]; exact hr
      · rw [Function.update_noteq hj]; exact hring j
    · exact hring j
  exact ⟨hring', fun i => targetHeight_bounds _ (hring' _), hh⟩

theorem BarsBounded_tick (od : OverlayData) (h : BarsBounded od) :
    BarsBounded (animation_tick od) := by
  obtain ⟨hring, ht, hh⟩ := h
  refine ⟨hring, ht, fun i => ?_⟩
  have hstep : (animation_tick od).bar_heights i =
      od.bar_heights i * (7 / 10) + od.bar_targets i * (3 / 10) := rfl
  rw [hstep]
  obtain ⟨h1, h2⟩ := ht i
  obtain ⟨h3, h4⟩ := hh i
  constructor <;> linarith

theorem BarsBounded_runOps (ops : List Op) :
    ∀ od : OverlayData, BarsBounded od →
      (∀ r, Op.push r ∈ ops → 0 ≤ r) → BarsBounded (runOps od ops) := by
  induction ops with
  | nil => intro od h _; exact h
  | cons op rest ih =>
    intro od h hpos
    have hrest : ∀ r, Op.push r ∈ rest → 0 ≤ r :=
      fun r hr => hpos r (List.mem_cons_of_mem _ hr)
    have hstep : BarsBounded (applyOp od op) := by
      cases op with
      | setState state => exact h
      | tick => exact BarsBounded_tick od h
      | push r => exact BarsBounded_push od r h (hpos r (List.mem_cons_self _ _))
    exact ih (applyOp od op) hstep hrest

/-- Claim C9 (bar height bound invariant).  In every state reached from
`overlay_create` by any interleaving of set-state, animation ticks and pushes
of non-negative samples, every `bar_targets[i]` and every `bar_heights[i]`
lies in `[BAR_MIN_HEIGHT, BAR_MAX_HEIGHT] = [4, 40]`, with no clamp applied
after smoothing. -/
theorem bar_heights_bounded (ops : List Op) (hpos : ∀ r, Op.push r ∈ ops → 0 ≤ r)
    (i : Fin ITEM_COUNT) :
    (4 ≤ (runOps overlay_create ops).bar_targets i ∧
      (runOps overlay_create ops).bar_targets i ≤ 40) ∧
    (4 ≤ (runOps overlay_create ops).bar_heights i ∧
      (runOps overlay_create ops).bar_heights i ≤ 40) := by
  obtain ⟨-, ht, hh⟩ := BarsBounded_runOps ops overlay_create BarsBounded_create hpos
  have h1 := ht i
  have h2 := hh i
  simp only [BAR_MIN_HEIGHT, BAR_MAX_HEIGHT] at h1 h2
  exact ⟨h1, h2⟩

/-- The claim C9 at a concrete run: recording, a loud sample, a tick, a quiet
sample, a tick. -/
theorem bar_heights_bounded_witness :
    (4 ≤ (runOps overlay_create
        [Op.setState 1, Op.push 1, Op.tick, Op.push (1 / 100), Op.tick]).bar_targets 6 ∧
      (runOps overlay_create
        [Op.setState 1, Op.push 1, Op.tick, Op.push (1 / 100), Op.tick]).bar_targets 6 ≤ 40) ∧
    (4 ≤ (runOps overlay_create
        [Op.setState 1, Op.push 1, Op.tick, Op.push (1 / 100), Op.tick]).bar_heights 6 ∧
      (runOps overlay_create
        [Op.setState 1, Op.push 1, Op.tick, Op.push (1 / 100), Op.tick]).bar_heights 6 ≤ 40) :=
  bar_heights_bounded [Op.setState 1, Op.push 1, Op.tick, Op.push (1 / 100), Op.tick]
    (by
      intro r hr
      simp only [List.mem_cons, Op.push.injEq, List.mem_singleton, List.not_mem_nil,
        or_false, false_or, reduceCtorEq] at hr
      rcases hr with rfl | rfl <;> norm_num)
    6

/-! ## Target heights at exact levels -/

theorem targetHeight_quarter : targetHeight (2 / 100) = 13 := by
  norm_num [targetHeight, RMS_SCALE, BAR_MIN_HEIGHT, BAR_MAX_HEIGHT]

theorem targetHeight_half : targetHeight (4 / 100) = 22 := by
  norm_num [targetHeight, RMS_SCALE, BAR_MIN_HEIGHT, BAR_MAX_HEIGHT]

theorem targetHeight_full : targetHeight (8 / 100) = 40 := by
  norm_num [targetHeight, RMS_SCALE, BAR_MIN_HEIGHT, BAR_MAX_HEIGHT]

/-! ## Bar-to-sample mapping -/

theorem targetHeight_zero : targetHeight 0 = 4 := by
  norm_num [targetHeight, RMS_SCALE, BAR_MIN_HEIGHT, BAR_MAX_HEIGHT]

/-- After at least one push, bar `i` has the target of the ring slot read `i`
places from the head. -/
theorem pushAll_bar_targets (xs : List ℚ) (hne : xs ≠ []) (i : Fin ITEM_COUNT) :
    (pushAll overlay_create xs).bar_targets i =
      targetHeight (readFromHead (pushAll overlay_create xs) i.val) := by
  induction xs using List.reverseRecOn with
  | nil => exact absurd rfl hne
  | append_singleton ys y _ => rw [pushAll_snoc]; rfl

/-- After at least seven pushes, bar `i` has the target of the sample at
position `length - 7 + i` of the pushed sequence. -/
theorem pushAll_bar_targets_get (xs : List ℚ) (hlen : ITEM_COUNT ≤ xs.length)
    (i : Fin ITEM_COUNT) (hp : xs.length - ITEM_COUNT + i.val < xs.length) :
    (pushAll overlay_create xs).bar_targets i =
      targetHeight (xs.get ⟨xs.length - ITEM_COUNT + i.val, hp⟩) := by
  have hne : xs ≠ [] := by
    intro h
    rw [h] at hlen
    exact absurd hlen (by decide)
  obtain ⟨hh, hr⟩ := pushAll_ring xs
  rw [pushAll_bar_targets xs hne i, readFromHead, hh]
  have hidx : ringIndex (xs.length % ITEM_COUNT) i.val =
      ringIndex (xs.length - ITEM_COUNT + i.val) 0 := by
    apply Fin.ext
    have hi : i.val < 7 := i.isLt
    have hlen7 : 7 ≤ xs.length := hlen
    simp only [ringIndex, ITEM_COUNT]
    omega
  rw [hidx, hr _ hp (by omega)]

/-- Claim C7 as stated fails.  After the seven pushes `0, 0, 0, 0, 0, 0, 0.08`
the newest sample is `0.08`, whose target is 40, but bar 0 has target 4 (the
target of the oldest sample); the newest sample drives bar 6. -/
theorem bar_sample_mapping_counterexample :
    (pushAll overlay_create [0, 0, 0, 0, 0, 0, 8 / 100]).bar_targets 0 = 4 ∧
    (pushAll overlay_create [0, 0, 0, 0, 0, 0, 8 / 100]).bar_targets 6 = 40 ∧
    targetHeight (8 / 100) = 40 ∧
    (pushAll overlay_create [0, 0, 0, 0, 0, 0, 8 / 100]).bar_targets 0 ≠
      targetHeight (8 / 100) := by
  have h0 : (pushAll overlay_create [0, 0, 0, 0, 0, 0, 8 / 100]).bar_targets 0 = 4 :=
    Eq.trans (rfl : _ = targetHeight 0) targetHeight_zero
  have h6 : (pushAll overlay_create [0, 0, 0, 0, 0, 0, 8 / 100]).bar_targets 6 = 40 :=
    Eq.trans (rfl : _ = targetHeight (8 / 100)) targetHeight_full
  refine ⟨h0, h6, targetHeight_full, ?_⟩
  rw [h0, targetHeight_full]
  norm_num

/-- Claim C7, amended.  After every push through `idle_push_rms` that follows
at least `N = 7` pushes from a fresh overlay, for every bar index `i` the
target `bar_targets[i]` is the target height of the sample pushed `N - 1 - i`
pushes before the most recent one: bar `N - 1` reflects the newest sample and
bar 0 the oldest of the last `N`. -/
theorem bar_sample_mapping (xs : List ℚ) (hlen : ITEM_COUNT ≤ xs.length)
    (i : Fin ITEM_COUNT) :
    (pushAll overlay_create xs).bar_targets i =
      targetHeight (xs.reverse.get ⟨ITEM_COUNT - 1 - i.val, by
        rw [List.length_reverse]; have := i.isLt; omega⟩) := by
  have hi := i.isLt
  have hp : xs.length - ITEM_COUNT + i.val < xs.length := by omega
  rw [pushAll_bar_targets_get xs hlen i hp]
  congr 1
  simp only [List.get_eq_getElem, List.getElem_reverse]
  congr 1
  omega

/-- The amended claim C7 at a concrete input: eight pushes, bar 6 shows the
newest sample. -/
theorem bar_sample_mapping_witness :
    (pushAll overlay_create [1, 0, 0, 0, 0, 0, 0, 2 / 100]).bar_targets 6 =
      targetHeight (2 / 100) :=
  bar_sample_mapping [1, 0, 0, 0, 0, 0, 0, 2 / 100] (by decide) 6

/-! ## Trigger grammar -/

theorem strtok_token_plus (tok rest : List Char) (hne : tok ≠ [])
    (hplus : '+' ∉ tok) : strtok (tok ++ '+' :: rest) = some (tok, rest) := by
  obtain ⟨c, t, rfl⟩ := List.exists_cons_of_ne_nil hne
  have hc : c ≠ '+' := fun h => hplus (h ▸ List.mem_cons_self _ _)
  have hall : ∀ a ∈ c :: t, (fun x => x != '+') a = true := by
    intro a ha
    have : a ≠ '+' := fun h => hplus (h ▸ ha)
    simpa using this
  have hd : List.dropWhile (fun x => x == '+') ((c :: t) ++ '+' :: rest) =
      (c :: t) ++ '+' :: rest := by
    rw [List.cons_append, List.dropWhile_cons_of_neg (by simpa using hc)]
  unfold strtok
  simp only [hd]
  rw [if_neg (by simp), List.takeWhile_append_of_pos hall,
    List.dropWhile_append_of_pos hall]
  simp

theorem strtok_token_end (tok : List Char) (hne : tok ≠ []) (hplus : '+' ∉ tok) :
    strtok tok = some (tok, []) := by
  obtain ⟨c, t, rfl⟩ := List.exists_cons_of_ne_nil hne
  have hc : c ≠ '+' := fun h => hplus (h ▸ List.mem_cons_self _ _)
  have hall : ∀ a ∈ c :: t, (fun x => x != '+') a = true := by
    intro a ha
    have : a ≠ '+' := fun h => hplus (h ▸ ha)
    simpa using this
  have hd : List.dropWhile (fun x => x == '+') (c :: t) = c :: t := by
    rw [List.dropWhile_cons_of_neg (by simpa using hc)]
  have h1 : List.takeWhile (fun x => x != '+') ((c :: t) ++ []) =
      (c :: t) ++ List.takeWhile (fun x => x != '+') [] :=
    List.takeWhile_append_of_pos hall
  have h2 : List.dropWhile (fun x => x != '+') ((c :: t) ++ []) =
      List.dropWhile (fun x => x != '+') [] :=
    List.dropWhile_append_of_pos hall
  rw [List.append_nil] at h1 h2
  unfold strtok
  simp only [hd]
  rw [if_neg (by simp), h1, h2]
  simp

theorem parse_x11_mods_loop_of_none (s : List Char) (mods : Nat)
    (h : strtok s = none) : parse_x11_mods_loop s mods = mods := by
  rw [parse_x11_mods_loop]
  split
  · rfl
  · rename_i heq
    rw [h] at heq
    exact absurd heq (by simp)

theorem parse_x11_mods_loop_of_some (s tok rest : List Char) (mods : Nat)
    (h : strtok s = some (tok, rest)) :
    parse_x11_mods_loop s mods = parse_x11_mods_loop rest (mods ||| tokenMask tok) := by
  rw [parse_x11_mods_loop]
  split
  · rename_i heq
    rw [h] at heq
    exact absurd heq (by simp)
  · rename_i tok1 rest1 heq
    rw [h] at heq
    simp only [Option.some.injEq, Prod.mk.injEq] at heq
    rw [heq.1, heq.2]

theorem functionKeyText_cases (upper : Bool) (n : Nat) (h1 : 1 ≤ n) (h12 : n ≤ 12) :
    functionKeyText upper n ≠ [] ∧ '+' ∉ functionKeyText upper n ∧
      tokenMask (functionKeyText upper n) = 0 ∧
      ∀ X : List Char → Nat,
        keysymOfKeyStr X (functionKeyText upper n) = XK_F1 + (n - 1) := by
  interval_cases n <;> cases upper <;>
    exact ⟨by decide, by decide, by decide, fun _ => rfl⟩

/-- A key of the grammar is either the single character `+`, which `strtok`
skips, or one token without `+`; in both cases it adds no modifier mask. -/
theorem key_token (key : List Char) (hkey : IsKey key) :
    (strtok key = none ∨ strtok key = some (key, [])) ∧
      (strtok key = some (key, []) → tokenMask key = 0) := by
  rcases hkey with rfl | rfl | rfl | ⟨c, rfl⟩ | ⟨upper, n, h1, h12, rfl⟩
  · exact ⟨Or.inr (by decide), fun _ => by decide⟩
  · exact ⟨Or.inr (by decide), fun _ => by decide⟩
  · exact ⟨Or.inr (by decide), fun _ => by decide⟩
  · refine ⟨?_, fun _ => by simp [tokenMask, str_ctrl, str_shift, str_alt, str_super]⟩
    by_cases hc : c = '+'
    · subst hc
      exact Or.inl (by decide)
    · exact Or.inr (strtok_token_end [c] (by simp) (by simpa using Ne.symm hc))
  · obtain ⟨hne, hplus, hmask, -⟩ := functionKeyText_cases upper n h1 h12
    exact ⟨Or.inr (strtok_token_end _ hne hplus), fun _ => hmask⟩

theorem parse_x11_mods_loop_key (key : List Char) (hkey : IsKey key) (mods : Nat) :
    parse_x11_mods_loop key mods = mods := by
  obtain ⟨hcases, hmask⟩ := key_token key hkey
  rcases hcases with hnone | hsome
  · exact parse_x11_mods_loop_of_none key mods hnone
  · rw [parse_x11_mods_loop_of_some key key [] mods hsome, hmask hsome, Nat.or_zero]
    exact parse_x11_mods_loop_of_none [] _ (by decide)

theorem Modifier.text_token (m : Modifier) :
    m.text ≠ [] ∧ '+' ∉ m.text ∧ tokenMask m.text = m.mask := by
  cases m <;> exact ⟨by decide, by decide, by decide⟩

theorem parse_x11_mods_loop_trigger (ms : List Modifier) (key : List Char)
    (hkey : IsKey key) :
    ∀ mods : Nat, parse_x11_mods_loop (triggerText ms key) mods = mods ||| orMasks ms := by
  induction ms with
  | nil => intro mods; rw [triggerText, orMasks, Nat.or_zero]
           exact parse_x11_mods_loop_key key hkey mods
  | cons m rest ih =>
    intro mods
    obtain ⟨hne, hplus, hmask⟩ := m.text_token
    rw [triggerText, parse_x11_mods_loop_of_some _ m.text (triggerText rest key) mods
      (strtok_token_plus m.text _ hne hplus), ih, hmask, orMasks, Nat.or_assoc]

theorem orMasks_testBit (ms : List Modifier) (b : Nat) :
    (orMasks ms).testBit b = ms.any (fun m => m.mask.testBit b) := by
  induction ms with
  | nil => simp [orMasks]
  | cons m rest ih => rw [orMasks, Nat.testBit_or, ih, List.any_cons]

/-- The OR of the masks depends only on which modifiers occur, not on their
order or repetition. -/
theorem orMasks_congr (ms ms' : List Modifier) (h : ∀ m, m ∈ ms ↔ m ∈ ms') :
    orMasks ms = orMasks ms' := by
  apply Nat.eq_of_testBit_eq
  intro b
  rw [orMasks_testBit, orMasks_testBit, Bool.eq_iff_iff, List.any_eq_true,
    List.any_eq_true]
  constructor
  · rintro ⟨m, hm, hb⟩; exact ⟨m, (h m).mp hm, hb⟩
  · rintro ⟨m, hm, hb⟩; exact ⟨m, (h m).mpr hm, hb⟩

theorem strrchr_none (c : Char) (s : List Char) (h : c ∉ s) : strrchr c s = none := by
  induction s with
  | nil => rfl
  | cons x xs ih =>
    have hx : x ≠ c := fun hxc => h (hxc ▸ List.mem_cons_self _ _)
    have hxs : c ∉ xs := fun hm => h (List.mem_cons_of_mem _ hm)
    simp only [strrchr, ih hxs, if_neg hx]

theorem strrchr_last (c : Char) (pre s : List Char) (h : c ∉ s) :
    strrchr c (pre ++ c :: s) = some (c :: s) := by
  induction pre with
  | nil => simp only [List.nil_append, strrchr, strrchr_none c s h, if_true]
  | cons x xs ih => rw [List.cons_append, strrchr, ih]

theorem triggerText_split (ms : List Modifier) (key : List Char) :
    ms = [] ∨ ∃ pre, triggerText ms key = pre ++ '+' :: key := by
  induction ms with
  | nil => exact Or.inl rfl
  | cons m rest ih =>
    right
    rcases ih with rfl | ⟨pre, hpre⟩
    · exact ⟨m.text, rfl⟩
    · exact ⟨m.text ++ '+' :: pre, by rw [triggerText, hpre]; simp⟩

/-- For a key without `+`, `parse_x11_keysym` resolves the key itself. -/
theorem parse_x11_keysym_trigger (X : List Char → Nat) (ms : List Modifier)
    (key : List Char) (hplus : '+' ∉ key) :
    parse_x11_keysym X (triggerText ms key) = keysymOfKeyStr X key := by
  rcases triggerText_split ms key with rfl | ⟨pre, hpre⟩
  · simp only [parse_x11_keysym, triggerText, strrchr_none '+' key hplus]
  · simp only [parse_x11_keysym, hpre, strrchr_last '+' pre key hplus, List.drop_one,
      List.tail_cons]

/-- Claim C10 (trigger parsing).  For every trigger `m1+...+mk+key` of the
grammar, `parse_x11_mods` returns exactly the OR of the masks of `m1 .. mk`
(so the result depends only on which modifiers occur), and `parse_x11_keysym`
resolves the text after the last `+`: `space`, `enter`, `tab` give `XK_space`,
`XK_Return`, `XK_Tab`, and `f<n>` and `F<n>` give `XK_F1 + (n - 1)` for every
`n` in `1 .. 12`. -/
theorem trigger_parsing (X : List Char → Nat) (ms : List Modifier) (key : List Char)
    (hkey : IsKey key) :
    parse_x11_mods (triggerText ms key) = orMasks ms ∧
    (∀ ms' : List Modifier, (∀ m, m ∈ ms ↔ m ∈ ms') →
      parse_x11_mods (triggerText ms' key) = parse_x11_mods (triggerText ms key)) ∧
    (key = str_space → parse_x11_keysym X (triggerText ms key) = XK_space) ∧
    (key = str_enter → parse_x11_keysym X (triggerText ms key) = XK_Return) ∧
    (key = str_tab → parse_x11_keysym X (triggerText ms key) = XK_Tab) ∧
    (∀ (upper : Bool) (n : Nat), 1 ≤ n → n ≤ 12 → key = functionKeyText upper n →
      parse_x11_keysym X (triggerText ms key) = XK_F1 + (n - 1)) := by
  have hmods : ∀ l : List Modifier, parse_x11_mods (triggerText l key) = orMasks l := by
    intro l
    rw [parse_x11_mods, parse_x11_mods_loop_trigger l key hkey, Nat.zero_or]
  refine ⟨hmods ms, ?_, ?_, ?_, ?_, ?_⟩
  · intro ms' h
    rw [hmods, hmods, orMasks_congr ms ms' h]
  · rintro rfl
    rw [parse_x11_keysym_trigger X ms _ (by decide)]
    rfl
  · rintro rfl
    rw [parse_x11_keysym_trigger X ms _ (by decide)]
    rfl
  · rintro rfl
    rw [parse_x11_keysym_trigger X ms _ (by decide)]
    rfl
  · rintro upper n h1 h12 rfl
    obtain ⟨-, hplus, -, hsym⟩ := functionKeyText_cases upper n h1 h12
    rw [parse_x11_keysym_trigger X ms _ hplus, hsym X]

/-- The claim C10 at a concrete input: `ctrl+shift+F12`. -/
theorem trigger_parsing_witness :
    parse_x11_mods (triggerText [Modifier.ctrl, Modifier.shift] ['F', '1', '2']) =
        ControlMask ||| (ShiftMask ||| 0) ∧
      parse_x11_keysym (fun _ => 0)
        (triggerText [Modifier.ctrl, Modifier.shift] ['F', '1', '2']) = XK_F1 + 11 :=
  have h := trigger_parsing (fun _ => 0) [Modifier.ctrl, Modifier.shift] ['F', '1', '2']
    (Or.inr (Or.inr (Or.inr (Or.inr ⟨true, 12, by decide, by decide, by decide⟩))))
  ⟨h.1, h.2.2.2.2.2 true 12 (by decide) (by decide) (by decide)⟩

/-! ## Idle pulse -/

/-- Claim C11 (idle pulse periodicity and bound).  Over the reals, with the
real sine and `π`, the alpha `0.35 + 0.65 * sin(2πt/4 + i·2π/7)^2` computed in
`draw_idle_dots` satisfies `dotAlpha(i, t + 4) = dotAlpha(i, t)` and
`0.35 ≤ dotAlpha(i, t) ≤ 1.0` for every dot index `i` (in particular
`0 .. 6`) and every time `t`. -/
theorem dotAlpha_periodic_bounded (i : Nat) (t : ℝ) :
    dotAlpha Real.sin Real.pi i (t + 4) = dotAlpha Real.sin Real.pi i t ∧
    35 / 100 ≤ dotAlpha Real.sin Real.pi i t ∧
    dotAlpha Real.sin Real.pi i t ≤ 1 := by
  have hphase : 2 * Real.pi * (t + 4) / 4 + (i : ℝ) * 2 * Real.pi / (ITEM_COUNT : ℝ) =
      (2 * Real.pi * t / 4 + (i : ℝ) * 2 * Real.pi / (ITEM_COUNT : ℝ)) + 2 * Real.pi := by
    ring
  have hsq := Real.sin_sq_le_one
    (2 * Real.pi * t / 4 + (i : ℝ) * 2 * Real.pi / (ITEM_COUNT : ℝ))
  have hnn := sq_nonneg
    (Real.sin (2 * Real.pi * t / 4 + (i : ℝ) * 2 * Real.pi / (ITEM_COUNT : ℝ)))
  refine ⟨?_, ?_, ?_⟩
  · simp only [dotAlpha]
    rw [hphase, Real.sin_add_two_pi]
  · simp only [dotAlpha]
    nlinarith
  · simp only [dotAlpha]
    nlinarith

/-! ## The newest sample and the ring head -/

/-- Every state reached from `overlay_create` by set-state, ticks and pushes
has its ring head inside the array. -/
theorem runOps_head_lt (ops : List Op) :
    ∀ od : OverlayData, od.rms_head < ITEM_COUNT →
      (runOps od ops).rms_head < ITEM_COUNT := by
  induction ops with
  | nil => intro od h; exact h
  | cons op rest ih =>
    intro od h
    apply ih (applyOp od op)
    cases op with
    | setState state => exact h
    | tick => exact h
    | push r => exact Nat.mod_lt _ (by decide)

/-! ## Rounding lemmas -/

theorem roundNearestEven_eq (y : ℚ) (n : ℤ) (h1 : (n : ℚ) - 1 / 2 < y)
    (h2 : y < (n : ℚ) + 1 / 2) : roundNearestEven y = n := by
  unfold roundNearestEven
  simp only
  by_cases hn : (n : ℚ) ≤ y
  · have hf : ⌊y⌋ = n := Int.floor_eq_iff.mpr ⟨hn, by linarith⟩
    rw [hf, if_pos (by linarith)]
  · have hf : ⌊y⌋ = n - 1 :=
      Int.floor_eq_iff.mpr ⟨by push_cast; linarith, by push_cast; linarith⟩
    rw [hf, if_neg (by push_cast; linarith), if_pos (by push_cast; linarith)]
    ring

theorem log_two_abs_eq (q : ℚ) (e : ℤ) (hlo : (2 : ℚ) ^ e ≤ |q|)
    (hhi : |q| < (2 : ℚ) ^ (e + 1)) : Int.log 2 |q| = e := by
  have hpos : 0 < |q| := lt_of_lt_of_le (zpow_pos (by norm_num) e) hlo
  have h1 : e ≤ Int.log 2 |q| :=
    (Int.zpow_le_iff_le_log (by norm_num) hpos).mp (by simpa using hlo)
  have h2 : Int.log 2 |q| < e + 1 :=
    (Int.lt_zpow_iff_log_lt (by norm_num) hpos).mp (by simpa using hhi)
  omega

/-- Evaluating a rounding: give the exponent and the integer significand. -/
theorem roundBinary_eq (prec : Nat) (emin : Int) (q : ℚ) (e n : ℤ) (he : emin ≤ e)
    (hlo : (2 : ℚ) ^ e ≤ |q|) (hhi : |q| < (2 : ℚ) ^ (e + 1))
    (h1 : (n : ℚ) - 1 / 2 < q / 2 ^ (e - ((prec : Int) - 1)))
    (h2 : q / 2 ^ (e - ((prec : Int) - 1)) < (n : ℚ) + 1 / 2) :
    roundBinary prec emin q = (n : ℚ) * 2 ^ (e - ((prec : Int) - 1)) := by
  unfold roundBinary
  simp only
  rw [log_two_abs_eq q e hlo hhi, max_eq_left he, roundNearestEven_eq _ n h1 h2]

theorem RMS_SCALE_double_eq : RMS_SCALE_double = 5764607523034235 / 2 ^ 56 := by
  unfold RMS_SCALE_double roundDouble
  rw [roundBinary_eq 53 (-1022) (8 / 100) (-4) 5764607523034235 (by norm_num)
    (by norm_num [abs_of_pos]) (by norm_num [abs_of_pos]) (by norm_num) (by norm_num)]
  norm_num

theorem roundDouble_span : roundDouble (BAR_MAX_HEIGHT - BAR_MIN_HEIGHT) = 36 := by
  have h : BAR_MAX_HEIGHT - BAR_MIN_HEIGHT = 36 := by norm_num [BAR_MAX_HEIGHT, BAR_MIN_HEIGHT]
  rw [h]
  unfold roundDouble
  rw [roundBinary_eq 53 (-1022) (36) (5) (5066549580791808) (by norm_num)
    (by norm_num [abs_of_pos]) (by norm_num [abs_of_pos]) (by norm_num) (by norm_num)]
  norm_num

/-- Evaluating a target in the code's arithmetic from its three roundings. -/
theorem targetHeightDouble_eq (rms norm p t : ℚ)
    (h1 : roundDouble (rms / RMS_SCALE_double) = norm) (hcl : ¬ norm > 1)
    (h2 : roundDouble (norm * 36) = p) (h3 : roundDouble (4 + p) = t) :
    targetHeightDouble rms = t := by
  unfold targetHeightDouble
  simp only
  rw [h1, if_neg hcl, roundDouble_span, h2]
  exact h3

theorem roundFloat_level_002 : roundFloat (2 / 100) = 5368709 / 2 ^ 28 := by
  unfold roundFloat
  rw [roundBinary_eq 24 (-126) (2 / 100) (-6) (10737418) (by norm_num)
    (by norm_num [abs_of_pos]) (by norm_num [abs_of_pos]) (by norm_num) (by norm_num)]
  norm_num

theorem roundFloat_level_004 : roundFloat (4 / 100) = 5368709 / 2 ^ 27 := by
  unfold roundFloat
  rw [roundBinary_eq 24 (-126) (4 / 100) (-5) (10737418) (by norm_num)
    (by norm_num [abs_of_pos]) (by norm_num [abs_of_pos]) (by norm_num) (by norm_num)]
  norm_num

theorem roundFloat_level_008 : roundFloat (8 / 100) = 5368709 / 2 ^ 26 := by
  unfold roundFloat
  rw [roundBinary_eq 24 (-126) (8 / 100) (-4) (10737418) (by norm_num)
    (by norm_num [abs_of_pos]) (by norm_num [abs_of_pos]) (by norm_num) (by norm_num)]
  norm_num

/-- The target of the `float` nearest `0.02`: about `12.9999998`. -/
theorem targetHeightDouble_level_002 :
    targetHeightDouble (5368709 / 2 ^ 28) = 1744830437 / 2 ^ 27 := by
  have h1 : roundDouble (5368709 / 2 ^ 28 / RMS_SCALE_double) = 134217725 / 2 ^ 29 := by
    rw [RMS_SCALE_double_eq]
    unfold roundDouble
    rw [roundBinary_eq 53 (-1022)
      (5368709 / 2 ^ 28 / (5764607523034235 / 2 ^ 56))
      (-3) (9007199053414400) (by norm_num)
      (by norm_num [abs_of_pos]) (by norm_num [abs_of_pos]) (by norm_num) (by norm_num)]
    norm_num
  have h2 : roundDouble (134217725 / 2 ^ 29 * 36) = 1207959525 / 2 ^ 27 := by
    unfold roundDouble
    rw [roundBinary_eq 53 (-1022) (134217725 / 2 ^ 29 * 36) (3) (5066549467545600) (by norm_num)
      (by norm_num [abs_of_pos]) (by norm_num [abs_of_pos]) (by norm_num) (by norm_num)]
    norm_num
  have h3 : roundDouble (4 + 1207959525 / 2 ^ 27) = 1744830437 / 2 ^ 27 := by
    unfold roundDouble
    rw [roundBinary_eq 53 (-1022) (4 + 1207959525 / 2 ^ 27) (3) (7318349281230848) (by norm_num)
      (by norm_num [abs_of_pos]) (by norm_num [abs_of_pos]) (by norm_num) (by norm_num)]
    norm_num
  exact targetHeightDouble_eq _ _ _ _ h1 (by norm_num) h2 h3

/-- The target of the `float` nearest `0.04`: about `21.9999996`. -/
theorem targetHeightDouble_level_004 :
    targetHeightDouble (5368709 / 2 ^ 27) = 1476394981 / 2 ^ 26 := by
  have h1 : roundDouble (5368709 / 2 ^ 27 / RMS_SCALE_double) = 134217725 / 2 ^ 28 := by
    rw [RMS_SCALE_double_eq]
    unfold roundDouble
    rw [roundBinary_eq 53 (-1022)
      (5368709 / 2 ^ 27 / (5764607523034235 / 2 ^ 56))
      (-2) (9007199053414400) (by norm_num)
      (by norm_num [abs_of_pos]) (by norm_num [abs_of_pos]) (by norm_num) (by norm_num)]
    norm_num
  have h2 : roundDouble (134217725 / 2 ^ 28 * 36) = 1207959525 / 2 ^ 26 := by
    unfold roundDouble
    rw [roundBinary_eq 53 (-1022) (134217725 / 2 ^ 28 * 36) (4) (5066549467545600) (by norm_num)
      (by norm_num [abs_of_pos]) (by norm_num [abs_of_pos]) (by norm_num) (by norm_num)]
    norm_num
  have h3 : roundDouble (4 + 1207959525 / 2 ^ 26) = 1476394981 / 2 ^ 26 := by
    unfold roundDouble
    rw [roundBinary_eq 53 (-1022) (4 + 1207959525 / 2 ^ 26) (4) (6192449374388224) (by norm_num)
      (by norm_num [abs_of_pos]) (by norm_num [abs_of_pos]) (by norm_num) (by norm_num)]
    norm_num
  exact targetHeightDouble_eq _ _ _ _ h1 (by norm_num) h2 h3

/-- The target of the `float` nearest `0.08`: about `39.9999992`. -/
theorem targetHeightDouble_level_008 :
    targetHeightDouble (5368709 / 2 ^ 26) = 1342177253 / 2 ^ 25 := by
  have h1 : roundDouble (5368709 / 2 ^ 26 / RMS_SCALE_double) = 134217725 / 2 ^ 27 := by
    rw [RMS_SCALE_double_eq]
    unfold roundDouble
    rw [roundBinary_eq 53 (-1022)
      (5368709 / 2 ^ 26 / (5764607523034235 / 2 ^ 56))
      (-1) (9007199053414400) (by norm_num)
      (by norm_num [abs_of_pos]) (by norm_num [abs_of_pos]) (by norm_num) (by norm_num)]
    norm_num
  have h2 : roundDouble (134217725 / 2 ^ 27 * 36) = 1207959525 / 2 ^ 25 := by
    unfold roundDouble
    rw [roundBinary_eq 53 (-1022) (134217725 / 2 ^ 27 * 36) (5) (5066549467545600) (by norm_num)
      (by norm_num [abs_of_pos]) (by norm_num [abs_of_pos]) (by norm_num) (by norm_num)]
    norm_num
  have h3 : roundDouble (4 + 1207959525 / 2 ^ 25) = 1342177253 / 2 ^ 25 := by
    unfold roundDouble
    rw [roundBinary_eq 53 (-1022) (4 + 1207959525 / 2 ^ 25) (5) (5629499420966912) (by norm_num)
      (by norm_num [abs_of_pos]) (by norm_num [abs_of_pos]) (by norm_num) (by norm_num)]
    norm_num
  exact targetHeightDouble_eq _ _ _ _ h1 (by norm_num) h2 h3

/-- Claim C6 as stated fails.  After the seven push-then-tick rounds the ring
has been filled exactly once: the `float` `0.02` is still in slot 0 and bar 0
has target `12.9999998`.  Bar 6 shows the `float` `0.08`, which is below the
`double` `RMS_SCALE`, so its target is `39.9999992`, not `BAR_MAX_HEIGHT`. -/
theorem scenario_counterexample :
    (recordLevels scenarioLevels).rms_ring 0 = roundFloat (2 / 100) ∧
    (recordLevels scenarioLevels).bar_targets 0 = 1744830437 / 2 ^ 27 ∧
    (recordLevels scenarioLevels).bar_targets 0 ≠ BAR_MAX_HEIGHT ∧
    (recordLevels scenarioLevels).rms_ring 6 = roundFloat (8 / 100) ∧
    roundFloat (8 / 100) < RMS_SCALE_double ∧
    (recordLevels scenarioLevels).bar_targets 6 = 1342177253 / 2 ^ 25 ∧
    (recordLevels scenarioLevels).bar_targets 6 ≠ BAR_MAX_HEIGHT := by
  have h0 : (recordLevels scenarioLevels).bar_targets 0 = 1744830437 / 2 ^ 27 := by
    rw [show (recordLevels scenarioLevels).bar_targets 0 =
      targetHeightDouble (roundFloat (2 / 100)) from rfl, roundFloat_level_002,
      targetHeightDouble_level_002]
  have h6 : (recordLevels scenarioLevels).bar_targets 6 = 1342177253 / 2 ^ 25 := by
    rw [show (recordLevels scenarioLevels).bar_targets 6 =
      targetHeightDouble (roundFloat (8 / 100)) from rfl, roundFloat_level_008,
      targetHeightDouble_level_008]
  refine ⟨rfl, h0, ?_, rfl, ?_, h6, ?_⟩
  · rw [h0]; norm_num [BAR_MAX_HEIGHT]
  · rw [roundFloat_level_008, RMS_SCALE_double_eq]; norm_num
  · rw [h6]; norm_num [BAR_MAX_HEIGHT]

/-- Claim C6, amended.  After the seven rounds the ring holds exactly the seven
pushed `float` samples, `0.02` still in slot 0.  After two more rounds with
level `0.08` (nine in all) every ring slot holds the `float` `0.08`, so `0.02`
and `0.04` are gone, and every bar target equals the target of that `float`,
`1342177253 / 2^25 = 39.9999992`, which is below `BAR_MAX_HEIGHT` by less than
`10^-6`. -/
theorem scenario_amended :
    (recordLevels scenarioLevels).state = OVERLAY_STATE_RECORDING ∧
    (∀ i : Fin ITEM_COUNT,
      (recordLevels scenarioLevels).rms_ring i =
        ![roundFloat (2 / 100), roundFloat (4 / 100), roundFloat (8 / 100),
          roundFloat (8 / 100), roundFloat (8 / 100), roundFloat (8 / 100),
          roundFloat (8 / 100)] i) ∧
    (∀ i : Fin ITEM_COUNT,
      (recordLevels (scenarioLevels ++ [roundFloat (8 / 100), roundFloat (8 / 100)])).rms_ring i
          = roundFloat (8 / 100) ∧
      (recordLevels (scenarioLevels ++ [roundFloat (8 / 100), roundFloat (8 / 100)])).bar_targets
          i = 1342177253 / 2 ^ 25) ∧
    roundFloat (2 / 100) ≠ roundFloat (8 / 100) ∧
    roundFloat (4 / 100) ≠ roundFloat (8 / 100) ∧
    (1342177253 / 2 ^ 25 : ℚ) < BAR_MAX_HEIGHT ∧
    BAR_MAX_HEIGHT - 1342177253 / 2 ^ 25 < 1 / 10 ^ 6 := by
  have ht : targetHeightDouble (roundFloat (8 / 100)) = 1342177253 / 2 ^ 25 := by
    rw [roundFloat_level_008, targetHeightDouble_level_008]
  refine ⟨rfl, ?_, ?_, ?_, ?_, ?_, ?_⟩
  · intro i
    fin_cases i <;> rfl
  · intro i
    fin_cases i <;>
      exact ⟨rfl, Eq.trans (rfl : _ = targetHeightDouble (roundFloat (8 / 100))) ht⟩
  · rw [roundFloat_level_002, roundFloat_level_008]; norm_num
  · rw [roundFloat_level_004, roundFloat_level_008]; norm_num
  · norm_num [BAR_MAX_HEIGHT]
  · norm_num [BAR_MAX_HEIGHT]

end Sussurro
